import Mathlib

/-!
Shallow embedding of `final_comprehensive_aircraft_crawler.py`.

Strings are modelled as `List Char`.  The Python code only ever feeds the
pipeline ASCII text, and all the literal configuration lists are ASCII, so
character classes (`[A-Za-z]`, `\d`, `\s`, `\w`, `str.lower()`) are embedded
by their ASCII behaviour; the Unicode extensions of Python's classes are
never exercised by the claims, which are about ASCII data.
-/

/-- Character 34, the double-quote. -/
def quoteChar : Char := Char.ofNat 34

/-- Character 92, the backslash. -/
def backslashChar : Char := Char.ofNat 92

/-- Character 39, the apostrophe. -/
def apostChar : Char := Char.ofNat 39

/-- Python `\s` on ASCII text: space, tab, newline, CR, vertical tab, form feed. -/
def isPySpace (c : Char) : Bool :=
  c == ' ' || c == Char.ofNat 9 || c == Char.ofNat 10 || c == Char.ofNat 13 ||
  c == Char.ofNat 11 || c == Char.ofNat 12

/-- Python `str.lower()` on ASCII text, applied characterwise. -/
def lowerL (s : List Char) : List Char := s.map Char.toLower

/-- Tests whether `needle` is a prefix of `hay` (helper for substring search). -/
def isPrefAt : List Char → List Char → Bool
  | [], _ => true
  | _ :: _, [] => false
  | a :: as, b :: bs => a == b && isPrefAt as bs

/-- Python's `needle in hay` on strings: substring containment. -/
def containsSub (needle : List Char) : List Char → Bool
  | [] => needle.isEmpty
  | b :: bs => isPrefAt needle (b :: bs) || containsSub needle bs

/-- The href denylist of `extract_aircraft_from_html_content` (first `any(...)`). -/
def href_skips : List (List Char) :=
  ["category:".data, "help:".data, "special:".data, "file:".data, "template:".data,
   "user:".data, "talk:".data, "index.php".data, "aviation".data,
   "ground_vehicles".data, "fleet".data, "main_page".data, "recent_changes".data,
   "random".data, "whatlinkshere".data, "recentchangeslinked".data,
   "specialpages".data, "printable".data, "images/".data, "resources/".data]

/-- The title denylist of `extract_aircraft_from_html_content` (second `any(...)`). -/
def title_skips : List (List Char) :=
  ["category".data, "discussion".data, "view source".data, "view history".data,
   "aviation".data, "ground vehicles".data, "fleet".data, "helicopters".data,
   "help".data, "navigation".data, "recent changes".data, "random page".data,
   "what links here".data, "related changes".data, "special pages".data,
   "printable version".data, "permanent link".data, "page information".data]

/-- The `skip_terms` list of `is_aircraft_name`. -/
def skip_terms : List (List Char) :=
  ["category".data, "discussion".data, "view source".data, "view history".data,
   "aviation".data, "ground vehicles".data, "fleet".data, "helicopters".data,
   "help".data, "navigation".data, "recent changes".data, "random page".data,
   "what links here".data, "related changes".data, "special pages".data,
   "printable version".data, "permanent link".data, "page information".data,
   "tutorial".data, "guide".data, "book of records".data,
   "climbing the ranks".data, "media".data, "grumman aircraft".data,
   "american air forces".data, "pages in category".data,
   "terms and conditions".data, "privacy policy".data,
   "contribution agreement".data, "heinkel aircraft".data,
   "german aircraft".data]

/-- The `aircraft_names` list of `is_aircraft_name`. -/
def aircraft_names : List (List Char) :=
  ["walrus".data, "osprey".data, "catalina".data, "mariner".data,
   "hurricane".data, "spitfire".data, "typhoon".data, "tempest".data,
   "mustang".data, "thunderbolt".data, "lightning".data, "meteor".data,
   "vampire".data, "venom".data, "hunter".data, "harrier".data, "jaguar".data,
   "tornado".data, "phantom".data, "eagle".data, "falcon".data, "hornet".data,
   "tomcat".data, "corsair".data, "hellcat".data, "wildcat".data,
   "bearcat".data, "skyraider".data, "skyhawk".data, "intruder".data,
   "prowler".data, "viking".data, "hawkeye".data, "greyhound".data,
   "seahawk".data, "super".data, "sabre".data, "starfighter".data,
   "freedom".data, "fighting".data, "crusader".data, "vigilante".data,
   "fury".data, "gladiator".data, "nimrod".data, "swordfish".data,
   "hampden".data, "blenheim".data, "beaufort".data, "wellington".data,
   "lancaster".data, "stirling".data, "halifax".data, "mosquito".data,
   "beaufighter".data, "firefly".data, "seafire".data, "wyvern".data,
   "attacker".data, "scimitar".data, "buccaneer".data, "canberra".data,
   "javelin".data, "swift".data, "vixen".data, "strikemaster".data,
   "firecrest".data, "brigand".data]

/-- The allowed-character class `[A-Za-z0-9\-\.\(\)\s/\'\"_%]` of `is_aircraft_name`. -/
def isAllowedChar (c : Char) : Bool :=
  c.isAlpha || c.isDigit || isPySpace c || c == '-' || c == '.' || c == '(' ||
  c == ')' || c == '/' || c == apostChar || c == quoteChar || c == '_' || c == '%'

/-- Embeds `re.match(r'^[A-Za-z0-9\-\.\(\)\s/\'\"_%]+$', name)`: since the
newline character belongs to the class (via `\s`), the `$` subtlety is moot and
the regex matches exactly the non-empty all-allowed strings. -/
def matches_allowed_chars (name : List Char) : Bool :=
  decide (0 < name.length) && name.all isAllowedChar

/-- Embeds `re.search(r'[A-Za-z]', name) and re.search(r'[0-9\-]', name)`
(the `has_alphanum` local of `is_aircraft_name`). -/
def has_alphanum (name : List Char) : Bool :=
  name.any Char.isAlpha && name.any (fun c => c.isDigit || c == '-')

/-- Embeds `any(aircraft_name in name.lower() for aircraft_name in aircraft_names)`. -/
def has_aircraft_name (name : List Char) : Bool :=
  aircraft_names.any fun t => containsSub t (lowerL name)

/-- Designation pattern `^[A-Z]-\d+` under `re.match` (truthiness only):
an uppercase letter, a hyphen, then at least one digit. -/
def pat1 : List Char → Bool
  | a :: b :: c :: _ => a.isUpper && b == '-' && c.isDigit
  | _ => false

/-- Designation pattern `^[A-Z]\d+[A-Z]?` under `re.match`: an uppercase letter
then at least one digit (the trailing optional group never affects truthiness). -/
def pat2 : List Char → Bool
  | a :: b :: _ => a.isUpper && b.isDigit
  | _ => false

/-- Designation pattern `^[A-Z]{2,3}-\d+` under `re.match`: two or three
uppercase letters, a hyphen, then at least one digit. -/
def pat3 : List Char → Bool
  | a :: b :: c :: d :: rest =>
    (a.isUpper && b.isUpper && c == '-' && d.isDigit) ||
    (a.isUpper && b.isUpper && c.isUpper && d == '-' &&
      (match rest with | e :: _ => e.isDigit | [] => false))
  | _ => false

/-- Python `\w` on ASCII text. -/
def isWordChar (c : Char) : Bool := c.isAlpha || c.isDigit || c == '_'

/-- Designation pattern `^\w+\s+Mk\s+\w+` under `re.match`.  Because `\w` and
`\s` are disjoint character classes and the literal `Mk` starts with a
non-space character, the regex engine's greedy matching is deterministic:
take the maximal word run, the maximal space run, the literal, the maximal
space run, then one word character. -/
def pat4 (name : List Char) : Bool :=
  let w1 := name.takeWhile isWordChar
  let r1 := name.dropWhile isWordChar
  if w1.isEmpty then false else
  let sp1 := r1.takeWhile isPySpace
  let r2 := r1.dropWhile isPySpace
  if sp1.isEmpty then false else
  match r2 with
  | 'M' :: 'k' :: r3 =>
    let sp2 := r3.takeWhile isPySpace
    let r4 := r3.dropWhile isPySpace
    if sp2.isEmpty then false else
    match r4 with
    | c :: _ => isWordChar c
    | [] => false
  | _ => false

/-- Designation pattern `^[A-Z][a-z]\s+\d+` under `re.match`: uppercase,
lowercase, at least one space, then a digit (greedy `\s+` is deterministic
because digits are not spaces). -/
def pat5 : List Char → Bool
  | a :: b :: rest =>
    a.isUpper && b.isLower &&
    (!(rest.takeWhile isPySpace).isEmpty &&
      (match rest.dropWhile isPySpace with | c :: _ => c.isDigit | [] => false))
  | _ => false

/-- The `has_designation` local of `is_aircraft_name`: any of the five
designation patterns matches from the start. -/
def has_designation (name : List Char) : Bool :=
  pat1 name || pat2 name || pat3 name || pat4 name || pat5 name

/-- Embedding of `is_aircraft_name` from the crawler, gate for gate. -/
def is_aircraft_name (name : List Char) : Bool :=
  if name.isEmpty || name.length < 2 then false
  else if skip_terms.contains (lowerL name) ||
          skip_terms.any (fun t => containsSub t (lowerL name)) then false
  else if !(name.any Char.isAlpha) then false
  else if !(matches_allowed_chars name) then false
  else has_alphanum name || has_aircraft_name name || has_designation name

/-- Literal `href="` of the extraction regex. -/
def hrefOpenLit : List Char := "href=".data ++ [quoteChar]

/-- Literal `title="` of the extraction regex. -/
def titleOpenLit : List Char := "title=".data ++ [quoteChar]

/-- Character class `[^"]` of the extraction regex. -/
def notQuote (c : Char) : Bool := c != quoteChar

/-- Strips a literal prefix, returning the remainder on success. -/
def stripL : List Char → List Char → Option (List Char)
  | [], cs => some cs
  | p :: ps, c :: cs => if c == p then stripL ps cs else none
  | _ :: _, [] => none

/-- Requires a leading `/` (start of the first capture group `(/[^"]+)`). -/
def expectSlash : List Char → Option (List Char)
  | c :: cs => if c == '/' then some cs else none
  | [] => none

/-- Greedy `C+` for a character class `C`: the maximal non-empty run and the
remainder, or failure when the run is empty. -/
def takeRun (p : Char → Bool) (cs : List Char) : Option (List Char × List Char) :=
  if (cs.takeWhile p).isEmpty then none else some (cs.takeWhile p, cs.dropWhile p)

/-- Result of matching the link regex at one position: the two capture groups
and the text after the match. -/
structure MatchRes where
  href : List Char
  title : List Char
  rest : List Char
deriving DecidableEq, Repr

/-- Matches the regex `href="(/[^"]+)"\s+title="([^"]+)"` at the start of
`cs`.  Every greedy subpattern here is followed by a character its class
excludes, so greedy matching is deterministic and no backtracking arises. -/
def matchLinkAt (cs : List Char) : Option MatchRes :=
  (stripL hrefOpenLit cs).bind fun s1 =>
  (expectSlash s1).bind fun s2 =>
  (takeRun notQuote s2).bind fun pr1 =>
  (stripL [quoteChar] pr1.2).bind fun r2 =>
  (takeRun isPySpace r2).bind fun pr2 =>
  (stripL titleOpenLit pr2.2).bind fun r4 =>
  (takeRun notQuote r4).bind fun pr3 =>
  (stripL [quoteChar] pr3.2).bind fun r6 =>
  some ⟨'/' :: pr1.1, pr3.1, r6⟩

/-- Fuelled scan for `re.findall(link_pattern, html_content)`: at each
position, emit the capture pair when the pattern matches there and resume
after the matched text, otherwise advance one character.  Each step consumes
at least one character, so fuel equal to the length of the text suffices
(`findLinksF_congr` below makes the fuel irrelevance precise). -/
def findLinksF : Nat → List Char → List (List Char × List Char)
  | 0, _ => []
  | fuel + 1, cs =>
    match matchLinkAt cs with
    | some r => (r.href, r.title) :: findLinksF fuel r.rest
    | none =>
      match cs with
      | [] => []
      | _ :: tl => findLinksF fuel tl

/-- Embedding of `re.findall(link_pattern, html_content)`. -/
def findLinks (cs : List Char) : List (List Char × List Char) :=
  findLinksF cs.length cs


/-- Base URL default of `extract_aircraft_from_html_content`. -/
def base_url : List Char := "https://old-wiki.warthunder.com".data

/-- First `continue` of the extraction loop: the lowercased href contains one
of the namespace/system markers. -/
def href_excluded (href : List Char) : Bool :=
  href_skips.any fun t => containsSub t (lowerL href)

/-- Second `continue` of the extraction loop: the lowercased title contains
one of the navigation/meta phrases. -/
def title_excluded (title : List Char) : Bool :=
  title_skips.any fun t => containsSub t (lowerL title)

/-- Body of the extraction loop: drop excluded pairs, classify the rest, and
build `(title, base_url + href)` entries. -/
def classify_links (base : List Char) (links : List (List Char × List Char)) :
    List (List Char × List Char) :=
  links.filterMap fun pr =>
    if href_excluded pr.1 then none
    else if title_excluded pr.2 then none
    else if is_aircraft_name pr.2 then some (pr.2, base ++ pr.1) else none

/-- The `seen_urls` loop of `extract_aircraft_from_html_content`:
keep a pair only when its url has not been seen before. -/
def dedup_aux (seen : List (List Char)) :
    List (List Char × List Char) → List (List Char × List Char)
  | [] => []
  | p :: rest =>
    if p.2 ∈ seen then dedup_aux seen rest
    else p :: dedup_aux (p.2 :: seen) rest

/-- Duplicate removal preserving order (`unique_aircraft` in the source). -/
def unique_aircraft (l : List (List Char × List Char)) :
    List (List Char × List Char) :=
  dedup_aux [] l

/-- Embedding of `extract_aircraft_from_html_content`. -/
def extract_aircraft_from_html_content (html : List Char)
    (base : List Char := base_url) : List (List Char × List Char) :=
  unique_aircraft (classify_links base (findLinks html))

/-- Code-point lexicographic order on strings, Python's `<=` on `str`. -/
def lexLe : List Char → List Char → Bool
  | [], _ => true
  | _ :: _, [] => false
  | a :: as, b :: bs =>
    if a.toNat < b.toNat then true
    else if b.toNat < a.toNat then false
    else lexLe as bs

/-- Comparison used by `save_aircraft_to_file`:
`sorted(aircraft, key=lambda x: x[0].lower())`. -/
def nameLe (a b : List Char × List Char) : Bool :=
  lexLe (lowerL a.1) (lowerL b.1)

/-- The sorting step of `save_aircraft_to_file`: Python's `sorted` is a stable
sort, embedded by `List.mergeSort`, which is also stable. -/
def sorted_aircraft (l : List (List Char × List Char)) :
    List (List Char × List Char) :=
  l.mergeSort nameLe

/-- Builds the text `href="/<p>"<ws>title="<t>"`: one link occurrence whose
path (after the slash) is `p`, whose between-attribute whitespace is `ws` and
whose title text is `t`. -/
def mkLink (p ws t : List Char) : List Char :=
  hrefOpenLit ++ '/' :: (p ++ quoteChar :: (ws ++ (titleOpenLit ++ (t ++ [quoteChar]))))

/-- Document holding a `/P-51` link and a `/Category:USA` link. -/
def p51_category_doc : List Char :=
  mkLink "P-51".data [' '] "P-51".data ++
  Char.ofNat 10 :: mkLink "Category:USA".data [' '] "Category".data

/-- Document holding the occurrence `href="/PBM-1_%22Mariner%22"
title="PBM-1 \"Mariner\""` (the title text carries two
backslash-escaped quotes, exactly as in the USA page data of the source). -/
def mariner_doc : List Char :=
  mkLink "PBM-1_%22Mariner%22".data [' ']
    ("PBM-1 ".data ++ [backslashChar, quoteChar] ++ "Mariner".data ++ [backslashChar])

/-- The title that claim C2 expects for the Mariner occurrence:
`PBM-1 "Mariner"` with the escapes removed. -/
def mariner_expected_title : List Char :=
  "PBM-1 ".data ++ [quoteChar] ++ "Mariner".data ++ [quoteChar]

/-- A link occurrence with no whitespace at all between the href attribute
and the title attribute. -/
def p51_nows_doc : List Char := mkLink "P-51".data [] "P-51".data

/-- One link occurrence inside a larger document: its path (after the
slash), the whitespace between the attribute tokens, its title text, and the
arbitrary non-matching text that follows it. -/
structure LinkOcc where
  path : List Char
  ws : List Char
  text : List Char
  sep : List Char

/-- Concatenates link occurrences, each followed by its trailing text. -/
def occsText : List LinkOcc → List Char
  | [] => []
  | o :: os => mkLink o.path o.ws o.text ++ (o.sep ++ occsText os)

/-- A document: leading text, then link occurrences interleaved with
non-matching text. -/
def linksDoc (lead : List Char) (os : List LinkOcc) : List Char :=
  lead ++ occsText os

/-- Well-shapedness of one occurrence: non-empty quote-free path and title,
at least one whitespace character between the attribute tokens, and
quote-free trailing text (text containing a quote could fuse with a later
occurrence through the quote-delimited capture groups). -/
def okOcc (o : LinkOcc) : Prop :=
  o.path ≠ [] ∧ (∀ c ∈ o.path, notQuote c = true) ∧
  o.ws ≠ [] ∧ (∀ c ∈ o.ws, isPySpace c = true) ∧
  o.text ≠ [] ∧ (∀ c ∈ o.text, notQuote c = true) ∧
  (∀ c ∈ o.sep, c ≠ quoteChar)

instance (o : LinkOcc) : Decidable (okOcc o) := by
  unfold okOcc
  infer_instance

theorem stripL_length : ∀ (ps cs s : List Char), stripL ps cs = some s →
    s.length + ps.length = cs.length := by
  intro ps
  induction ps with
  | nil => intro cs s h; simp [stripL] at h; simp [h]
  | cons p ps ih =>
    intro cs s h
    cases cs with
    | nil => simp [stripL] at h
    | cons c cs =>
      simp only [stripL] at h
      split at h
      · have := ih cs s h
        simp [List.length_cons]; omega
      · exact absurd h (by simp)

theorem takeRun_length {p : Char → Bool} {cs : List Char} {pr : List Char × List Char}
    (h : takeRun p cs = some pr) : pr.2.length < cs.length := by
  simp only [takeRun] at h
  split at h
  · exact absurd h (by simp)
  · rename_i hne
    cases h
    have hsplit : (cs.takeWhile p).length + (cs.dropWhile p).length = cs.length := by
      rw [← List.length_append, List.takeWhile_append_dropWhile]
    have : 0 < (cs.takeWhile p).length := by
      cases hq : cs.takeWhile p with
      | nil => rw [hq] at hne; simp at hne
      | cons a as => simp [hq]
    simp only []
    omega

theorem expectSlash_length {cs s : List Char} (h : expectSlash cs = some s) :
    s.length < cs.length := by
  cases cs with
  | nil => simp [expectSlash] at h
  | cons c cs =>
    simp only [expectSlash] at h
    split at h
    · cases h; simp
    · exact absurd h (by simp)

theorem matchLinkAt_lt {cs : List Char} {r : MatchRes} (h : matchLinkAt cs = some r) :
    r.rest.length < cs.length := by
  simp only [matchLinkAt, Option.bind_eq_some] at h
  obtain ⟨s1, h1, s2, h2, pr1, h3, r2, h4, pr2, h5, r4, h6, pr3, h7, r6, h8, h9⟩ := h
  have e1 := stripL_length _ _ _ h1
  have e2 := expectSlash_length h2
  have e3 := takeRun_length h3
  have e4 := stripL_length _ _ _ h4
  have e5 := takeRun_length h5
  have e6 := stripL_length _ _ _ h6
  have e7 := takeRun_length h7
  have e8 := stripL_length _ _ _ h8
  cases h9
  simp only [hrefOpenLit, titleOpenLit, List.length_append, List.length_cons,
    List.length_nil] at e1 e4 e6 e8
  simp only [String.length_data] at *
  omega

theorem isPrefAt_iff : ∀ (n h : List Char), isPrefAt n h = true ↔ n <+: h := by
  intro n
  induction n with
  | nil => intro h; simp [isPrefAt, List.nil_prefix]
  | cons a as ih =>
    intro h
    cases h with
    | nil => simp [isPrefAt]
    | cons b bs =>
      simp [isPrefAt, List.cons_prefix_cons, ih, Bool.and_eq_true, beq_iff_eq]

theorem containsSub_iff (n : List Char) : ∀ (h : List Char),
    containsSub n h = true ↔ n <:+: h := by
  intro h
  induction h with
  | nil => simp [containsSub, List.isEmpty_iff, List.infix_nil]
  | cons b bs ih =>
    simp [containsSub, List.infix_cons_iff, isPrefAt_iff, ih]

/-- Claim C4: a LinkPair is rejected by the exclusion filter exactly when its
lowercased href contains, as a substring, some entry of the href denylist, or
its lowercased title contains, as a substring, some entry of the title
denylist.  Both tests are substring containment, not whole-string equality. -/
theorem exclusion_filter_iff (href title : List Char) :
    (href_excluded href || title_excluded title) = true ↔
      ((∃ t ∈ href_skips, t <:+: lowerL href) ∨
       (∃ t ∈ title_skips, t <:+: lowerL title)) := by
  simp [href_excluded, title_excluded, List.any_eq_true, containsSub_iff]

/-- Claim C8: the purely alphabetic title `Hurricane` is classified as an
aircraft name, with the alnum-mixed signal false and the known-name signal
true, so the admission comes from the known-name list. -/
theorem hurricane_known_name_rescue :
    is_aircraft_name "Hurricane".data = true ∧
    has_alphanum "Hurricane".data = false ∧
    has_aircraft_name "Hurricane".data = true := by decide

/-- Claim C9: the pipeline (extraction, filtering, classification,
deduplication, sorting) is a pure function of the input text, so two runs on
identical input produce identical catalogs. -/
theorem pipeline_deterministic (html base : List Char) :
    sorted_aircraft (extract_aircraft_from_html_content html base) =
      sorted_aircraft (extract_aircraft_from_html_content html base) := rfl

/-- Claim C1: the classifier admits a title exactly when it is non-empty of
length at least two, its lowercasing neither equals nor contains any skip
term, it contains a letter, every character is allowed, and at least one of
the three signals (alnum-mixed, known-name membership, designation pattern)
holds. -/
theorem classifier_gates_iff (name : List Char) :
    is_aircraft_name name = true ↔
      (name ≠ [] ∧ 2 ≤ name.length ∧
       (∀ t ∈ skip_terms, lowerL name ≠ t ∧ ¬ t <:+: lowerL name) ∧
       (∃ c ∈ name, c.isAlpha) ∧
       (∀ c ∈ name, isAllowedChar c = true) ∧
       (((∃ c ∈ name, c.isAlpha) ∧ (∃ c ∈ name, c.isDigit ∨ c = '-')) ∨
        (∃ t ∈ aircraft_names, t <:+: lowerL name) ∨
        (pat1 name || pat2 name || pat3 name || pat4 name || pat5 name) = true)) := by
  simp only [is_aircraft_name]
  split_ifs with h1 h2 h3 h4
  · simp only [Bool.or_eq_true, List.isEmpty_iff, decide_eq_true_eq] at h1
    simp only [false_iff]
    rintro ⟨hne, hlen, -⟩
    rcases h1 with h | h
    · exact hne h
    · omega
  · simp only [Bool.or_eq_true, List.contains, List.elem_eq_mem, decide_eq_true_eq,
      List.any_eq_true, containsSub_iff] at h2
    simp only [false_iff]
    rintro ⟨-, -, hskip, -⟩
    rcases h2 with h | ⟨t, ht, hinf⟩
    · exact (hskip _ h).1 rfl
    · exact (hskip t ht).2 hinf
  · simp only [Bool.not_eq_eq_eq_not, Bool.not_true, List.any_eq_false] at h3
    simp only [false_iff]
    rintro ⟨-, -, -, ⟨c, hc, hca⟩, -⟩
    exact h3 c hc hca
  · simp only [matches_allowed_chars, Bool.not_eq_eq_eq_not, Bool.not_true,
      Bool.and_eq_false_iff, decide_eq_false_iff_not, Nat.not_lt, Nat.le_zero,
      List.length_eq_zero, List.all_eq_false] at h4
    simp only [false_iff]
    rintro ⟨hne, -, -, -, hallow, -⟩
    rcases h4 with h | ⟨c, hc, hca⟩
    · exact hne h
    · exact hca (hallow c hc)
  · simp only [Bool.or_eq_true, List.isEmpty_iff, decide_eq_true_eq, not_or] at h1
    simp only [Bool.or_eq_true, List.contains, List.elem_eq_mem, decide_eq_true_eq,
      List.any_eq_true, containsSub_iff, not_or, not_exists] at h2
    simp only [Bool.not_eq_eq_eq_not, Bool.not_true, Bool.not_eq_false] at h3
    simp only [matches_allowed_chars, Bool.not_eq_eq_eq_not, Bool.not_true,
      Bool.not_eq_false, Bool.and_eq_true, decide_eq_true_eq, List.all_eq_true] at h4
    obtain ⟨hne, hlen⟩ := h1
    obtain ⟨hmem, hinf⟩ := h2
    constructor
    · intro hor
      refine ⟨hne, by omega, ?_, ?_, h4.2, ?_⟩
      · intro t ht
        refine ⟨?_, ?_⟩
        · intro he; exact hmem (by rw [he]; exact ht)
        · intro hi
          have := hinf t
          simp only [ht, true_and] at this
          exact this hi
      · simpa using h3
      · simp only [has_alphanum, has_aircraft_name, has_designation, Bool.or_eq_true,
          Bool.and_eq_true, List.any_eq_true, containsSub_iff, beq_iff_eq] at hor ⊢
        exact or_assoc.mp hor
    · rintro ⟨-, -, -, -, -, hor⟩
      simp only [has_alphanum, has_aircraft_name, has_designation, Bool.or_eq_true,
        Bool.and_eq_true, List.any_eq_true, containsSub_iff, beq_iff_eq] at hor ⊢
      exact or_assoc.mpr hor

theorem dedup_aux_sublist (seen : List (List Char)) :
    ∀ l : List (List Char × List Char), List.Sublist (dedup_aux seen l) l := by
  intro l
  induction l generalizing seen with
  | nil => simp [dedup_aux]
  | cons p rest ih =>
    simp only [dedup_aux]
    split
    · exact (ih seen).trans (List.sublist_cons_self p rest)
    · exact (ih (p.2 :: seen)).cons₂ p

theorem dedup_aux_not_seen (seen : List (List Char))
    (l : List (List Char × List Char)) :
    ∀ q ∈ dedup_aux seen l, q.2 ∉ seen := by
  induction l generalizing seen with
  | nil => simp [dedup_aux]
  | cons p rest ih =>
    simp only [dedup_aux]
    split
    · exact ih seen
    · rename_i hns
      intro q hq
      rcases List.mem_cons.mp hq with hq | hq
      · intro hmem; rw [hq] at hmem; exact hns hmem
      · have := ih (p.2 :: seen) q hq
        intro hmem
        exact this (List.mem_cons_of_mem _ hmem)

theorem dedup_aux_pairwise (seen : List (List Char)) :
    ∀ l : List (List Char × List Char),
      (dedup_aux seen l).Pairwise (fun a b => a.2 ≠ b.2) := by
  intro l
  induction l generalizing seen with
  | nil => simp [dedup_aux]
  | cons p rest ih =>
    simp only [dedup_aux]
    split
    · exact ih seen
    · refine List.Pairwise.cons ?_ (ih (p.2 :: seen))
      intro q hq he
      exact dedup_aux_not_seen (p.2 :: seen) rest q hq
        (by rw [← he]; exact List.mem_cons_self _ _)

theorem dedup_aux_find (seen : List (List Char))
    (l : List (List Char × List Char)) (u : List Char) (hu : u ∉ seen) :
    (dedup_aux seen l).find? (fun q => decide (q.2 = u)) =
      l.find? (fun q => decide (q.2 = u)) := by
  induction l generalizing seen with
  | nil => simp [dedup_aux]
  | cons p rest ih =>
    simp only [dedup_aux]
    split
    · rename_i hseen
      have hne : ¬ p.2 = u := by intro he; rw [he] at hseen; exact hu hseen
      rw [List.find?_cons_of_neg _ (by simpa using hne)]
      exact ih seen hu
    · by_cases he : p.2 = u
      · rw [List.find?_cons_of_pos _ (by simpa using he),
          List.find?_cons_of_pos _ (by simpa using he)]
      · rw [List.find?_cons_of_neg _ (by simpa using he),
          List.find?_cons_of_neg _ (by simpa using he)]
        refine ih (p.2 :: seen) ?_
        simp only [List.mem_cons, not_or]
        exact ⟨fun h => he h.symm, hu⟩

/-- Claim C5: deduplication returns a subsequence of its input (so relative
order is preserved), no two survivors share a url, and for every url the
survivor found is exactly the first-encountered pair with that url. -/
theorem dedup_first_occurrence (l : List (List Char × List Char)) :
    List.Sublist (unique_aircraft l) l ∧
    (unique_aircraft l).Pairwise (fun a b => a.2 ≠ b.2) ∧
    ∀ u : List Char,
      (unique_aircraft l).find? (fun q => decide (q.2 = u)) =
        l.find? (fun q => decide (q.2 = u)) := by
  refine ⟨dedup_aux_sublist [] l, dedup_aux_pairwise [] l, ?_⟩
  intro u
  exact dedup_aux_find [] l u (by simp)

theorem lexLe_refl : ∀ a : List Char, lexLe a a = true := by
  intro a
  induction a with
  | nil => rfl
  | cons x xs ih => simp [lexLe, ih]

theorem lexLe_total : ∀ a b : List Char, (lexLe a b || lexLe b a) = true := by
  intro a
  induction a with
  | nil => intro b; simp [lexLe]
  | cons x xs ih =>
    intro b
    cases b with
    | nil => simp [lexLe]
    | cons y ys =>
      simp only [lexLe]
      split_ifs <;> simp_all [ih ys]

theorem lexLe_trans : ∀ a b c : List Char,
    lexLe a b = true → lexLe b c = true → lexLe a c = true := by
  intro a
  induction a with
  | nil => intro b c _ _; rfl
  | cons x xs ih =>
    intro b c h1 h2
    cases b with
    | nil => simp [lexLe] at h1
    | cons y ys =>
      cases c with
      | nil => simp [lexLe] at h2
      | cons z zs =>
        simp only [lexLe] at h1 h2 ⊢
        split_ifs at h1 h2 ⊢ <;>
          first
          | rfl
          | omega
          | exact ih ys zs h1 h2
          | simp_all

theorem nameLe_total : ∀ a b : List Char × List Char,
    (nameLe a b || nameLe b a) = true := by
  intro a b
  exact lexLe_total (lowerL a.1) (lowerL b.1)

theorem nameLe_trans : ∀ a b c : List Char × List Char,
    nameLe a b → nameLe b c → nameLe a c := by
  intro a b c h1 h2
  exact lexLe_trans _ _ _ h1 h2

/-- Claim C6: in every saved catalog, adjacent entities are ordered by
case-insensitive name, and for each case-insensitive name the entities bearing
it appear exactly as in the input (stability: ties keep first-seen order). -/
theorem catalog_sorted_stable (l : List (List Char × List Char)) :
    (sorted_aircraft l).Chain' (fun a b => nameLe a b = true) ∧
    ∀ k : List Char,
      (sorted_aircraft l).filter (fun e => decide (lowerL e.1 = k)) =
        l.filter (fun e => decide (lowerL e.1 = k)) := by
  constructor
  · exact (List.sorted_mergeSort nameLe_trans nameLe_total l).chain'
  · intro k
    simp only [sorted_aircraft]
    set p : (List Char × List Char) → Bool := fun e => decide (lowerL e.1 = k) with hp
    have hall : ∀ e ∈ l.filter p, lowerL e.1 = k := by
      intro e he
      have := List.of_mem_filter he
      simpa [hp] using this
    have hpw : (l.filter p).Pairwise (fun a b => nameLe a b = true) := by
      refine List.pairwise_of_forall_mem_list ?_
      intro a ha b hb
      have ha2 := hall a ha
      have hb2 := hall b hb
      simp [nameLe, ha2, hb2, lexLe_refl]
    have hsub : List.Sublist (l.filter p) (List.mergeSort l nameLe) :=
      List.sublist_mergeSort nameLe_trans nameLe_total hpw (List.filter_sublist l)
    have hidem : (l.filter p).filter p = l.filter p :=
      List.filter_eq_self.mpr (fun a ha => List.of_mem_filter ha)
    have hsub2 : List.Sublist (l.filter p) ((List.mergeSort l nameLe).filter p) := by
      have := hsub.filter p
      rwa [hidem] at this
    have hperm : ((List.mergeSort l nameLe).filter p).Perm (l.filter p) :=
      (List.mergeSort_perm l nameLe).filter p
    exact (hsub2.eq_of_length hperm.length_eq.symm).symm

theorem stripL_append : ∀ (lit rest : List Char), stripL lit (lit ++ rest) = some rest := by
  intro lit
  induction lit with
  | nil => intro rest; rfl
  | cons p ps ih => intro rest; simp [stripL, ih]

theorem matchLinkAt_nil : matchLinkAt [] = none := by decide

theorem findLinksF_nil : ∀ fuel : Nat, findLinksF fuel [] = [] := by
  intro fuel
  cases fuel with
  | zero => rfl
  | succ g => simp [findLinksF, matchLinkAt_nil]

theorem findLinksF_congr : ∀ (f1 : Nat) {f2 : Nat} {cs : List Char},
    cs.length ≤ f1 → cs.length ≤ f2 → findLinksF f1 cs = findLinksF f2 cs := by
  intro f1
  induction f1 with
  | zero =>
    intro f2 cs h1 _
    have : cs = [] := List.eq_nil_of_length_eq_zero (Nat.le_zero.mp h1)
    subst this
    rw [findLinksF_nil, findLinksF_nil]
  | succ g1 ih =>
    intro f2 cs h1 h2
    cases cs with
    | nil => rw [findLinksF_nil, findLinksF_nil]
    | cons c tl =>
      cases f2 with
      | zero => simp at h2
      | succ g2 =>
        simp only [findLinksF]
        cases hm : matchLinkAt (c :: tl) with
        | some r =>
          have hlt := matchLinkAt_lt hm
          simp only [List.length_cons] at h1 h2 hlt
          simp only []
          congr 1
          exact ih (by omega) (by omega)
        | none =>
          simp only [List.length_cons] at h1 h2
          exact ih (by omega) (by omega)

theorem findLinks_nil : findLinks [] = [] := rfl

theorem findLinks_some {cs : List Char} {r : MatchRes} (h : matchLinkAt cs = some r) :
    findLinks cs = (r.href, r.title) :: findLinks r.rest := by
  cases cs with
  | nil => rw [matchLinkAt_nil] at h; cases h
  | cons c tl =>
    have hlt := matchLinkAt_lt h
    simp only [List.length_cons] at hlt
    simp only [findLinks, List.length_cons, findLinksF, h]
    congr 1
    exact findLinksF_congr tl.length (by omega) (by omega)

theorem findLinks_cons_none {c : Char} {cs : List Char}
    (h : matchLinkAt (c :: cs) = none) : findLinks (c :: cs) = findLinks cs := by
  simp only [findLinks, List.length_cons, findLinksF, h]

theorem takeWhile_all_append {p : Char → Bool} :
    ∀ (xs : List Char) (y : Char) (ys : List Char),
      (∀ c ∈ xs, p c = true) → p y = false →
      (xs ++ y :: ys).takeWhile p = xs ∧ (xs ++ y :: ys).dropWhile p = y :: ys := by
  intro xs
  induction xs with
  | nil =>
    intro y ys _ hy
    simp [List.takeWhile_cons, List.dropWhile_cons, hy]
  | cons x xs ih =>
    intro y ys hall hy
    have hx := hall x (List.mem_cons_self _ _)
    obtain ⟨ht, hd⟩ := ih y ys (fun c hc => hall c (List.mem_cons_of_mem _ hc)) hy
    simp [List.takeWhile_cons, List.dropWhile_cons, hx, ht, hd]

theorem matchLinkAt_mkLink (p ws t rest : List Char)
    (hp : ∀ c ∈ p, notQuote c = true) (hpn : p ≠ [])
    (hw : ∀ c ∈ ws, isPySpace c = true) (hwn : ws ≠ [])
    (ht : ∀ c ∈ t, notQuote c = true) (htn : t ≠ []) :
    matchLinkAt (mkLink p ws t ++ rest) = some ⟨'/' :: p, t, rest⟩ := by
  have hshape : mkLink p ws t ++ rest =
      hrefOpenLit ++ ('/' :: (p ++ quoteChar :: (ws ++ (titleOpenLit ++ (t ++ quoteChar :: rest))))) := by
    simp [mkLink, List.append_assoc]
  have hq : notQuote quoteChar = false := by decide
  have e3 := takeWhile_all_append (p := notQuote) p quoteChar
    (ws ++ (titleOpenLit ++ (t ++ quoteChar :: rest))) hp hq
  have tOpen : titleOpenLit = 't' :: ("itle=".data ++ [quoteChar]) := by decide
  have hts : isPySpace 't' = false := by decide
  have e5pre : titleOpenLit ++ (t ++ quoteChar :: rest) =
      't' :: (("itle=".data ++ [quoteChar]) ++ (t ++ quoteChar :: rest)) := by
    rw [tOpen]; simp
  have e5 := takeWhile_all_append (p := isPySpace) ws 't'
    (("itle=".data ++ [quoteChar]) ++ (t ++ quoteChar :: rest)) hw hts
  have e7 := takeWhile_all_append (p := notQuote) t quoteChar rest ht hq
  have hpe : p.isEmpty = false := by cases p with | nil => exact absurd rfl hpn | cons a as => rfl
  have hwe : ws.isEmpty = false := by cases ws with | nil => exact absurd rfl hwn | cons a as => rfl
  have hte : t.isEmpty = false := by cases t with | nil => exact absurd rfl htn | cons a as => rfl
  rw [hshape]
  simp only [matchLinkAt, stripL_append, Option.some_bind]
  simp only [expectSlash, beq_self_eq_true, if_true, Option.some_bind]
  simp only [takeRun, e3.1, e3.2, hpe, Bool.false_eq_true, if_false, Option.some_bind]
  have e4 : stripL [quoteChar] (quoteChar :: (ws ++ (titleOpenLit ++ (t ++ quoteChar :: rest)))) =
      some (ws ++ (titleOpenLit ++ (t ++ quoteChar :: rest))) :=
    stripL_append [quoteChar] _
  rw [e4]
  simp only [Option.some_bind]
  rw [e5pre]
  simp only [takeRun, e5.1, e5.2, hwe, Bool.false_eq_true, if_false, Option.some_bind]
  rw [← e5pre]
  rw [stripL_append]
  simp only [Option.some_bind]
  simp only [takeRun, e7.1, e7.2, hte, Bool.false_eq_true, if_false, Option.some_bind]
  have e8 : stripL [quoteChar] (quoteChar :: rest) = some rest := stripL_append [quoteChar] rest
  rw [e8]
  simp only [Option.some_bind]

/-- Claim C3 counterexample: the document `href="/P-51"title="P-51"`, a link
occurrence with the two attribute tokens adjacent (absent whitespace), yields
no LinkPair at all, because the regex separator `\s+` requires at least one
whitespace character. -/
theorem no_whitespace_link_not_matched :
    findLinks p51_nows_doc = [] ∧ p51_nows_doc = mkLink "P-51".data [] "P-51".data := by
  exact ⟨by decide, rfl⟩

theorem stripL_junk_none : ∀ (j lit2 rest : List Char),
    (∀ c ∈ j, c ≠ quoteChar) → quoteChar ∈ lit2 →
    (∀ c cs, rest = c :: cs → c ∉ lit2) →
    stripL lit2 (j ++ rest) = none := by
  intro j
  induction j with
  | nil =>
    intro lit2 rest _ hql hr
    cases lit2 with
    | nil => simp at hql
    | cons p ps =>
      simp only [List.nil_append]
      cases rest with
      | nil => rfl
      | cons c cs =>
        have hne : c ≠ p := by
          intro he
          exact hr c cs rfl (by rw [he]; exact List.mem_cons_self p ps)
        simp [stripL, hne]
  | cons c1 j1 ih =>
    intro lit2 rest hq hql hr
    cases lit2 with
    | nil => simp at hql
    | cons p ps =>
      simp only [List.cons_append, stripL]
      by_cases he : c1 = p
      · rw [if_pos (by simp [he])]
        apply ih ps rest
        · intro c hc; exact hq c (List.mem_cons_of_mem _ hc)
        · rcases List.mem_cons.mp hql with h | h
          · exact absurd (he ▸ h.symm) (hq c1 (List.mem_cons_self _ _))
          · exact h
        · intro c cs hcs hmem
          exact hr c cs hcs (List.mem_cons_of_mem _ hmem)
      · rw [if_neg (by simpa using he)]

theorem matchLinkAt_junk (j rest : List Char) (hj : j ≠ [])
    (hq : ∀ c ∈ j, c ≠ quoteChar)
    (hr : ∀ c cs, rest = c :: cs → c ∉ ('r' :: 'e' :: 'f' :: '=' :: quoteChar :: [])) :
    matchLinkAt (j ++ rest) = none := by
  obtain ⟨c1, j1, rfl⟩ := List.exists_cons_of_ne_nil hj
  have hstrip : stripL hrefOpenLit ((c1 :: j1) ++ rest) = none := by
    rw [show hrefOpenLit = 'h' :: ('r' :: 'e' :: 'f' :: '=' :: quoteChar :: []) from by decide]
    simp only [List.cons_append, stripL]
    by_cases he : c1 = 'h'
    · rw [if_pos (by simp [he])]
      apply stripL_junk_none j1 _ rest
      · intro c hc; exact hq c (List.mem_cons_of_mem _ hc)
      · decide
      · exact hr
    · rw [if_neg (by simpa using he)]
  unfold matchLinkAt
  rw [hstrip]
  rfl

theorem mkLink_head (p w t : List Char) : ∃ cs, mkLink p w t = 'h' :: cs := by
  rw [mkLink, show hrefOpenLit = 'h' :: ("ref=".data ++ [quoteChar]) from by decide,
    List.cons_append]
  exact ⟨_, rfl⟩

theorem findLinks_skip_junk : ∀ (j rest : List Char),
    (∀ c ∈ j, c ≠ quoteChar) →
    (∀ c cs, rest = c :: cs → c ∉ ('r' :: 'e' :: 'f' :: '=' :: quoteChar :: [])) →
    findLinks (j ++ rest) = findLinks rest := by
  intro j
  induction j with
  | nil => intro rest _ _; rw [List.nil_append]
  | cons c1 j1 ih =>
    intro rest hq hr
    have hnone : matchLinkAt (c1 :: (j1 ++ rest)) = none := by
      rw [← List.cons_append]
      exact matchLinkAt_junk (c1 :: j1) rest (by simp) hq hr
    rw [List.cons_append, findLinks_cons_none hnone]
    exact ih rest (fun c hc => hq c (List.mem_cons_of_mem _ hc)) hr

/-- Claim C3 (amended): for every document consisting of link occurrences
shaped `href="/<path>"<ws>title="<text>"` — non-empty quote-free path and
title, one or more whitespace characters between the attribute tokens —
preceded, separated and followed by arbitrary quote-free non-matching text,
the extractor emits exactly one LinkPair per occurrence, in document order;
all surrounding text is skipped silently (no error), and an occurrence with
absent whitespace yields no LinkPair. -/
theorem link_shape_extraction (lead : List Char) (os : List LinkOcc) :
    (∀ c ∈ lead, c ≠ quoteChar) → (∀ o ∈ os, okOcc o) →
    findLinks (linksDoc lead os) = os.map (fun o => ('/' :: o.path, o.text)) := by
  induction os generalizing lead with
  | nil =>
    intro hlead _
    rw [show linksDoc lead [] = lead ++ [] from rfl]
    rw [findLinks_skip_junk lead [] hlead (fun c cs h => List.noConfusion h)]
    rw [findLinks_nil, List.map_nil]
  | cons o os ih =>
    intro hlead hos
    obtain ⟨hpn, hp, hwn, hw, htn, ht, hsep⟩ := hos o (List.mem_cons_self _ _)
    have hdoc : linksDoc lead (o :: os) =
        lead ++ (mkLink o.path o.ws o.text ++ (o.sep ++ occsText os)) := by
      simp [linksDoc, occsText]
    rw [hdoc]
    obtain ⟨cs0, hhead⟩ := mkLink_head o.path o.ws o.text
    rw [findLinks_skip_junk lead _ hlead ?hrcond]
    case hrcond =>
      intro c cs hc
      rw [hhead, List.cons_append] at hc
      cases hc
      decide
    have hm := matchLinkAt_mkLink o.path o.ws o.text (o.sep ++ occsText os)
      hp hpn hw hwn ht htn
    rw [findLinks_some hm]
    have hrest : findLinks (o.sep ++ occsText os) =
        os.map (fun o => ('/' :: o.path, o.text)) :=
      ih o.sep hsep (fun o2 ho2 => hos o2 (List.mem_cons_of_mem _ ho2))
    simp only [List.map_cons]
    exact congrArg _ hrest

/-- Witness for `link_shape_extraction`: leading text, a newline-separated
pair of occurrences (single and double space between the tokens), and
trailing text, as in the program's own documents. -/
theorem link_shape_extraction_witness :
    findLinks (linksDoc "Pages in category ".data
        [⟨"P-51".data, [' '], "P-51".data, [Char.ofNat 10]⟩,
         ⟨"B-17".data, [' ', ' '], "B-17".data, " trailing text".data⟩]) =
      [('/' :: "P-51".data, "P-51".data), ('/' :: "B-17".data, "B-17".data)] :=
  link_shape_extraction "Pages in category ".data
    [⟨"P-51".data, [' '], "P-51".data, [Char.ofNat 10]⟩,
     ⟨"B-17".data, [' ', ' '], "B-17".data, " trailing text".data⟩]
    (by decide) (by decide)

/-- Claim C2 counterexample: on the Mariner occurrence with escaped quotes in
the title, the extractor emits no entity at all — in particular not the
claimed entity `(PBM-1 "Mariner", base + /PBM-1_%22Mariner%22)` with the
escapes removed. -/
theorem mariner_title_not_unescaped :
    extract_aircraft_from_html_content mariner_doc base_url = [] ∧
    (mariner_expected_title, base_url ++ "/PBM-1_%22Mariner%22".data) ∉
      extract_aircraft_from_html_content mariner_doc base_url := by decide

/-- Claim C2 (amended): on the Mariner occurrence the title capture stops at
the first quote character, yielding `PBM-1 \` (trailing backslash, no
un-escaping and no percent-decoding anywhere); that string fails the
classifier's allowed-character gate, so the extractor produces no entity. -/
theorem mariner_doc_extraction :
    findLinks mariner_doc =
      [("/PBM-1_%22Mariner%22".data, "PBM-1 ".data ++ [backslashChar])] ∧
    is_aircraft_name ("PBM-1 ".data ++ [backslashChar]) = false ∧
    extract_aircraft_from_html_content mariner_doc base_url = [] := by decide

/-- Claim C7: on a document holding exactly a `/P-51` link (title `P-51`) and
a `/Category:USA` link (title `Category`), the pipeline's catalog is exactly
the single entity `P-51` with url base + `/P-51`; the Category pair is
already rejected by the exclusion filter (both by href and by title). -/
theorem end_to_end_p51_catalog :
    sorted_aircraft (extract_aircraft_from_html_content p51_category_doc base_url) =
      [("P-51".data, base_url ++ "/P-51".data)] ∧
    href_excluded "/Category:USA".data = true ∧
    title_excluded "Category".data = true := by
  refine ⟨?_, by decide, by decide⟩
  have h : extract_aircraft_from_html_content p51_category_doc base_url =
      [("P-51".data, base_url ++ "/P-51".data)] := by decide
  unfold sorted_aircraft
  rw [h, List.mergeSort_singleton]

theorem matchLinkAt_title_no_quote {cs : List Char} {r : MatchRes}
    (h : matchLinkAt cs = some r) : ∀ c ∈ r.title, c ≠ quoteChar := by
  simp only [matchLinkAt, Option.bind_eq_some] at h
  obtain ⟨s1, h1, s2, h2, pr1, h3, r2, h4, pr2, h5, r4, h6, pr3, h7, r6, h8, h9⟩ := h
  simp only [takeRun] at h7
  split at h7
  · cases h7
  · cases h7
    cases h9
    intro c hc
    have hm := List.mem_takeWhile_imp hc
    simpa [notQuote, bne_iff_ne] using hm

theorem findLinksF_title_no_quote : ∀ (fuel : Nat) (cs : List Char),
    ∀ pr ∈ findLinksF fuel cs, ∀ c ∈ pr.2, c ≠ quoteChar := by
  intro fuel
  induction fuel with
  | zero => intro cs pr hpr; simp [findLinksF] at hpr
  | succ g ih =>
    intro cs pr hpr
    simp only [findLinksF] at hpr
    cases hm : matchLinkAt cs with
    | some r =>
      rw [hm] at hpr
      simp only [List.mem_cons] at hpr
      rcases hpr with he | htail
      · subst he
        exact matchLinkAt_title_no_quote hm
      · exact ih r.rest pr htail
    | none =>
      rw [hm] at hpr
      cases cs with
      | nil => simp at hpr
      | cons c tl => exact ih tl pr hpr

theorem classify_links_names {base : List Char}
    {links : List (List Char × List Char)} {e : List Char × List Char}
    (he : e ∈ classify_links base links) : ∃ pr ∈ links, e.1 = pr.2 := by
  simp only [classify_links, List.mem_filterMap] at he
  obtain ⟨pr, hmem, hf⟩ := he
  refine ⟨pr, hmem, ?_⟩
  split_ifs at hf <;> first | (cases hf; rfl) | cases hf

/-- Claim C10: no entity name emitted by the extraction pipeline contains a
double-quote character, because the title capture group is a run of
non-quote characters. -/
theorem names_quote_free (html base : List Char) (e : List Char × List Char)
    (he : e ∈ extract_aircraft_from_html_content html base) :
    quoteChar ∉ e.1 := by
  unfold extract_aircraft_from_html_content unique_aircraft at he
  have hsub := dedup_aux_sublist [] (classify_links base (findLinks html))
  have he2 : e ∈ classify_links base (findLinks html) := hsub.subset he
  obtain ⟨pr, hpr, hname⟩ := classify_links_names he2
  intro hq
  rw [hname] at hq
  exact findLinksF_title_no_quote html.length html pr hpr quoteChar hq rfl

/-- Witness for `names_quote_free` on the concrete two-link document. -/
theorem names_quote_free_witness :
    (("P-51".data, base_url ++ "/P-51".data) ∈
      extract_aircraft_from_html_content p51_category_doc base_url) ∧
    quoteChar ∉ "P-51".data :=
  ⟨by decide, names_quote_free p51_category_doc base_url
    ("P-51".data, base_url ++ "/P-51".data) (by decide)⟩
